import Mathlib

/-!
Verification of the `leptos-tea` command-queue core (`src/lib/src/lib.rs`).

The development shallowly embeds the two components of the crate:

* `Cmd` — the per-update command queue (`Cmd<Msg>` in the source), with its
  builder methods `msg`, `batch_msgs`, `cmd` and the flush performed by the
  `Drop` implementation;
* `MsgDispatcher` — the dispatcher with `dispatch`, `queue_msg`, `batch`
  and `queue_batch`.

Modelling decisions:

* `SmallVec<[T; 4]>` is modelled as `List T`; `push` appends one element,
  `extend`/`collect` fold `push` over an iterator (`svPush`, `svExtend`,
  `svCollect`).
* a future of type `Future<Output = I>` registered with `Cmd::cmd` is
  modelled by the iterable it eventually yields, i.e. a `List Msg`; awaiting
  is represented in the scheduler by the nondeterministic `Choice.resolve`
  step below.
* the host scheduler (an external collaborator of the crate) is modelled as
  a single-threaded cooperative executor: `queue_microtask` callbacks and
  ready `spawn_local` tasks live in one FIFO `ready` queue, while a spawned
  task that is awaiting its future sits in the `pending` pool and becomes
  ready at a nondeterministic moment (`Choice.resolve k` picks any pending
  effect, so effect completions race).  Dispatcher writes are recorded in a
  `trace`; each entry is tagged with its provenance (`Origin`) so that
  ordering statements are meaningful even when message values coincide.
-/

namespace LeptosTea

/-- Model of `SmallVec::push`: appends one element at the end. -/
def svPush {α : Type} (v : List α) (a : α) : List α := v ++ [a]

/-- Model of `SmallVec::extend`: pushes every element of the iterator in
order. -/
def svExtend {α : Type} (v : List α) (l : List α) : List α := l.foldl svPush v

/-- Model of `iter.collect::<SmallVec<_>>()`: pushes every element of the
iterator into a fresh vector. -/
def svCollect {α : Type} (l : List α) : List α := svExtend [] l

/-- The command queue `Cmd<Msg>` from the source: a bound dispatcher
(`SignalSetter<Msg>`, modelled by its channel identity), the pending
messages `msgs` and the pending effects `cmds` (each effect modelled by the
message list its future eventually yields). -/
structure Cmd (Msg : Type) where
  msg_dispatcher : Nat
  msgs : List Msg
  cmds : List (List Msg)
deriving DecidableEq

/-- Model of `Cmd::new`: both internal sequences start empty. -/
def Cmd.new (Msg : Type) (msg_dispatcher : Nat) : Cmd Msg :=
  ⟨msg_dispatcher, [], []⟩

/-- Model of `Cmd::msg`: `self.msgs.push(msg)`. -/
def Cmd.msg {Msg : Type} (q : Cmd Msg) (m : Msg) : Cmd Msg :=
  { q with msgs := svPush q.msgs m }

/-- Model of `Cmd::batch_msgs`: `self.msgs.extend(msgs)`. -/
def Cmd.batch_msgs {Msg : Type} (q : Cmd Msg) (ms : List Msg) : Cmd Msg :=
  { q with msgs := svExtend q.msgs ms }

/-- Model of `Cmd::cmd`: pushes the future, wrapped so that its eventual
iterable output is collected into the small-vector representation
(`cmd.map(|i| i.into_iter().collect())`). -/
def Cmd.cmd {Msg : Type} (q : Cmd Msg) (fut : List Msg) : Cmd Msg :=
  { q with cmds := svPush q.cmds (svCollect fut) }

/-- The two scheduling primitives invoked by `Cmd`'s `Drop` impl:
`spawn_local` of the task awaiting one effect, and `queue_microtask` of a
closure dispatching one message. -/
inductive FlushPrim (Msg : Type) where
  | spawnLocal : List Msg → FlushPrim Msg
  | queueMicrotask : Msg → FlushPrim Msg
deriving DecidableEq

/-- The hand-off sequence performed by `Drop for Cmd`: the first `for` loop
spawns one task per pending effect (in registration order), the second
queues one microtask per pending message (in registration order). -/
def Cmd.dropPrims {Msg : Type} (q : Cmd Msg) : List (FlushPrim Msg) :=
  q.msgs.foldl (fun ps m => ps ++ [FlushPrim.queueMicrotask m])
    (q.cmds.foldl (fun ps c => ps ++ [FlushPrim.spawnLocal c]) [])

/-- The state of the queue's own fields after `Drop` ran: both lists were
taken with `std::mem::take`, which leaves them empty. -/
def Cmd.dropFields {Msg : Type} (q : Cmd Msg) : Cmd Msg :=
  { q with msgs := [], cmds := [] }

/-- Provenance of one dispatcher write: either the `i`-th queued message
(`fromQueue i`), or the `j`-th message of the `i`-th registered effect
(`fromEffect i j`). -/
inductive Origin where
  | fromQueue : Nat → Origin
  | fromEffect : Nat → Nat → Origin
deriving DecidableEq

/-- A unit of ready work in the host executor: the not-yet-polled body of a
spawned effect task (`effectStart i ms`, where `ms` is the message list its
future will eventually yield), the continuation of a spawned effect task
whose awaited future resolved to `ms` (`effectCont i ms`), or a
task/callback whose sole job is to dispatch one message (`dispatchOne`) —
used both for inner `spawn_local`s and for `queue_microtask` callbacks. -/
inductive RTask (Msg : Type) where
  | effectStart : Nat → List Msg → RTask Msg
  | effectCont : Nat → List Msg → RTask Msg
  | dispatchOne : Origin → Msg → RTask Msg
deriving DecidableEq

/-- State of the host executor: `pending` holds spawned effect tasks still
awaiting their future (with registration index and eventual result),
`ready` is the FIFO queue of ready work, `trace` records every dispatcher
write in order, tagged with provenance. -/
structure Sched (Msg : Type) where
  pending : List (Nat × List Msg)
  ready : List (RTask Msg)
  trace : List (Origin × Msg)
deriving DecidableEq

/-- Tags the pending messages of a queue with their registration indices,
as `queue_microtask` callbacks. -/
def tagMsgs {Msg : Type} : Nat → List Msg → List (RTask Msg)
  | _, [] => []
  | k, m :: l => RTask.dispatchOne (Origin.fromQueue k) m :: tagMsgs (k + 1) l

/-- Tags the pending effects of a queue with their registration indices. -/
def tagCmds {Msg : Type} : Nat → List (List Msg) → List (Nat × List Msg)
  | _, [] => []
  | k, c :: l => (k, c) :: tagCmds (k + 1) l

/-- Tasks spawned for the pending effects of a queue, one per effect, in
registration order. -/
def tagStarts {Msg : Type} : Nat → List (List Msg) → List (RTask Msg)
  | _, [] => []
  | k, c :: l => RTask.effectStart k c :: tagStarts (k + 1) l

/-- Tasks spawned by an effect continuation for the remaining messages of
its result: one `dispatchOne` task per message, in result order, starting
at result position `j`. -/
def tagEffect {Msg : Type} (i : Nat) : Nat → List Msg → List (RTask Msg)
  | _, [] => []
  | j, m :: l => RTask.dispatchOne (Origin.fromEffect i j) m :: tagEffect i (j + 1) l

/-- List of elements paired with their positions, starting at `k`. -/
def enumFromL {α : Type} (k : Nat) : List α → List (Nat × α)
  | [] => []
  | a :: l => (k, a) :: enumFromL (k + 1) l

/-- Executor state right after `Drop for Cmd` ran: every pending effect has
been handed to `spawn_local` (one queued task per effect, in registration
order — queued before the message callbacks, because the `Drop` body spawns
all effects first), and every pending message has been handed to
`queue_microtask` (one ready callback per message, in order). -/
def flushInit {Msg : Type} (q : Cmd Msg) : Sched Msg :=
  ⟨[], tagStarts 0 q.cmds ++ tagMsgs 0 q.msgs, []⟩

/-- One scheduling decision of the host executor: either some pending
effect's future resolves (`resolve k` — the choice of `k` is the
nondeterminism by which effect completions race), or the executor runs the
ready task at the head of the FIFO queue (`runNext now`; when that task is
the first poll of an effect, `now` decides whether its future is already
resolved at that moment, so effect results can be observed both before and
after unrelated scheduled work). -/
inductive Choice where
  | resolve : Nat → Choice
  | runNext : Bool → Choice
deriving DecidableEq

/-- Removes the element at position `k`, returning it and the remainder. -/
def takeAt {α : Type} : List α → Nat → Option (α × List α)
  | [], _ => none
  | x :: xs, 0 => some (x, xs)
  | x :: xs, k + 1 =>
    match takeAt xs k with
    | none => none
    | some (y, ys) => some (y, x :: ys)

/-- Runs one ready task (whose surrounding state is `s`, with the task
already popped).  An effect continuation is the body of the task spawned in
`Drop`: it dispatches the first message of its result immediately (within
the same continuation) and spawns one single-dispatch task per remaining
message; a `dispatchOne` task just performs its one dispatcher write; an
`effectStart` task behaves like the resolved continuation (its first poll
runs the whole body when the future is already resolved — the suspending
poll is handled in `step`, not here). -/
def runTask {Msg : Type} (s : Sched Msg) : RTask Msg → Sched Msg
  | RTask.dispatchOne o m => { s with trace := s.trace ++ [(o, m)] }
  | RTask.effectStart _ [] => s
  | RTask.effectStart i (m :: rest) =>
    { s with
      ready := s.ready ++ tagEffect i 1 rest,
      trace := s.trace ++ [(Origin.fromEffect i 0, m)] }
  | RTask.effectCont _ [] => s
  | RTask.effectCont i (m :: rest) =>
    { s with
      ready := s.ready ++ tagEffect i 1 rest,
      trace := s.trace ++ [(Origin.fromEffect i 0, m)] }

/-- One step of the host executor.  `resolve k` wakes the `k`-th awaiting
effect: its continuation joins the back of the ready queue.  `runNext now`
runs the head of the ready queue; when that head is the first poll of an
effect, `now = true` means its future is already resolved (the body runs
to completion now) and `now = false` means the poll suspends at the
`.await`, parking the task in the pending pool until some later `resolve`
wakes it. -/
def step {Msg : Type} (s : Sched Msg) : Choice → Sched Msg
  | Choice.resolve k =>
    match takeAt s.pending k with
    | none => s
    | some (e, p) =>
      { s with pending := p, ready := s.ready ++ [RTask.effectCont e.1 e.2] }
  | Choice.runNext now =>
    match s.ready with
    | [] => s
    | RTask.effectStart i ms :: r =>
      if now then runTask { s with ready := r } (RTask.effectCont i ms)
      else { s with pending := s.pending ++ [(i, ms)], ready := r }
    | t :: r => runTask { s with ready := r } t

/-- Runs the executor under a given sequence of scheduling decisions. -/
def runChoices {Msg : Type} (s : Sched Msg) (cs : List Choice) : Sched Msg :=
  cs.foldl step s

/-- Extraction of trace entries matched by a provenance selector. -/
def selEntry {Msg : Type} (sel : Origin → Option Nat) (e : Origin × Msg) :
    List (Nat × Msg) :=
  match sel e.1 with
  | some j => [(j, e.2)]
  | none => []

/-- Order-preserving extraction of the trace entries matched by `sel`. -/
def extractT {Msg : Type} (sel : Origin → Option Nat) :
    List (Origin × Msg) → List (Nat × Msg)
  | [] => []
  | e :: t => selEntry sel e ++ extractT sel t

/-- Contribution of one ready task to an extraction: a single-dispatch task
contributes its (selected) entry, an effect body or continuation
contributes whatever `contF` assigns to it. -/
def taskEntry {Msg : Type} (sel : Origin → Option Nat)
    (contF : Nat → List Msg → List (Nat × Msg)) : RTask Msg → List (Nat × Msg)
  | RTask.dispatchOne o m => selEntry sel (o, m)
  | RTask.effectStart i ms => contF i ms
  | RTask.effectCont i ms => contF i ms

/-- Order-preserving extraction over the ready queue. -/
def extractR {Msg : Type} (sel : Origin → Option Nat)
    (contF : Nat → List Msg → List (Nat × Msg)) :
    List (RTask Msg) → List (Nat × Msg)
  | [] => []
  | t :: r => taskEntry sel contF t ++ extractR sel contF r

/-- Selector for queue-originated writes. -/
def qSel : Origin → Option Nat
  | Origin.fromQueue i => some i
  | Origin.fromEffect _ _ => none

/-- Selector for the writes of effect number `i`. -/
def eSel (i : Nat) : Origin → Option Nat
  | Origin.fromEffect i2 j => if i2 = i then some j else none
  | Origin.fromQueue _ => none

/-- Effect continuations contribute nothing to the queue extraction. -/
def qCont {Msg : Type} : Nat → List Msg → List (Nat × Msg) := fun _ _ => []

/-- The still-unrun continuation of effect `i` contributes its whole future
result to the extraction for effect `i`. -/
def eCont {Msg : Type} (i : Nat) : Nat → List Msg → List (Nat × Msg) :=
  fun i2 ms => if i2 = i then enumFromL 0 ms else []

/-- Queue-originated trace entries, in trace order. -/
def qeTrace {Msg : Type} (t : List (Origin × Msg)) : List (Nat × Msg) :=
  extractT qSel t

/-- Trace entries of effect `i`, in trace order. -/
def eeTrace {Msg : Type} (i : Nat) (t : List (Origin × Msg)) : List (Nat × Msg) :=
  extractT (eSel i) t

/-- Future contribution of the pending pool to the extraction for effect
`i`. -/
def eePending {Msg : Type} (i : Nat) : List (Nat × List Msg) → List (Nat × Msg)
  | [] => []
  | e :: p => (if e.1 = i then enumFromL 0 e.2 else []) ++ eePending i p

/-- Past and future queue-originated writes of a state, in delivery
order. -/
def combQ {Msg : Type} (s : Sched Msg) : List (Nat × Msg) :=
  qeTrace s.trace ++ extractR qSel qCont s.ready

/-- Past and future writes of effect `i`, in delivery order. -/
def combE {Msg : Type} (i : Nat) (s : Sched Msg) : List (Nat × Msg) :=
  eeTrace i s.trace ++ extractR (eSel i) (eCont i) s.ready ++ eePending i s.pending

/-- Count contribution of one pending entry for effect `i`. -/
def pCount1 {Msg : Type} (i : Nat) (e : Nat × List Msg) : Nat :=
  if e.1 = i then 1 else 0

/-- Number of pending-pool entries registered as effect `i`. -/
def pCount {Msg : Type} (i : Nat) : List (Nat × List Msg) → Nat
  | [] => 0
  | e :: p => pCount1 i e + pCount i p

/-- Count contribution of one ready task to the unfinished incarnations
(body or continuation) of effect `i`. -/
def contCount1 {Msg : Type} (i : Nat) : RTask Msg → Nat
  | RTask.effectStart i2 _ => if i2 = i then 1 else 0
  | RTask.effectCont i2 _ => if i2 = i then 1 else 0
  | RTask.dispatchOne _ _ => 0

/-- Number of ready continuations of effect `i`. -/
def contCount {Msg : Type} (i : Nat) : List (RTask Msg) → Nat
  | [] => 0
  | t :: r => contCount1 i t + contCount i r

/-- Count contribution of one ready task to the single-dispatch tasks of
effect `i`. -/
def dispCount1 {Msg : Type} (i : Nat) : RTask Msg → Nat
  | RTask.dispatchOne (Origin.fromEffect i2 _) _ => if i2 = i then 1 else 0
  | RTask.dispatchOne (Origin.fromQueue _) _ => 0
  | RTask.effectStart _ _ => 0
  | RTask.effectCont _ _ => 0

/-- Number of ready single-dispatch tasks of effect `i`. -/
def dispCount {Msg : Type} (i : Nat) : List (RTask Msg) → Nat
  | [] => 0
  | t :: r => dispCount1 i t + dispCount i r

/-- Structural invariant for effect `i`: it has at most one unfinished
incarnation (awaiting or ready continuation), and while that incarnation
exists none of its single-dispatch tasks exist yet. -/
def invEff {Msg : Type} (i : Nat) (s : Sched Msg) : Prop :=
  pCount i s.pending + contCount i s.ready ≤ 1 ∧
    (1 ≤ pCount i s.pending + contCount i s.ready → dispCount i s.ready = 0)

/-- Strict observable ordering in a trace: every write of `o2` comes after
some write of `o1`. -/
def beforeIn {Msg : Type} (t : List (Origin × Msg)) (o1 o2 : Origin) : Prop :=
  ∃ t1 t2, t = t1 ++ t2 ∧ (∃ m, (o1, m) ∈ t1) ∧ (∃ m, (o2, m) ∈ t2) ∧
    ∀ m, (o2, m) ∉ t1

/-- One dispatcher event: an immediate (synchronous) write to the store's
channel, or a write deferred by `queue_microtask` to the next microtask. -/
inductive DispatchEvent (Msg : Type) where
  | now : Msg → DispatchEvent Msg
  | queued : Msg → DispatchEvent Msg
deriving DecidableEq

/-- The dispatcher `MsgDispatcher<Msg>`, wrapping the write side of the
store's message signal (modelled by its channel identity). -/
structure MsgDispatcher (Msg : Type) where
  writeSignal : Nat
deriving DecidableEq

/-- Model of `SignalSet::set` for the dispatcher: one immediate write. -/
def MsgDispatcher.set {Msg : Type} (_ : MsgDispatcher Msg) (m : Msg) :
    List (DispatchEvent Msg) :=
  [DispatchEvent.now m]

/-- Model of `MsgDispatcher::dispatch`: `self.set(msg)`. -/
def MsgDispatcher.dispatch {Msg : Type} (d : MsgDispatcher Msg) (m : Msg) :
    List (DispatchEvent Msg) :=
  d.set m

/-- Model of `MsgDispatcher::queue_msg`:
`queue_microtask(move || self.dispatch(msg))`. -/
def MsgDispatcher.queue_msg {Msg : Type} (_ : MsgDispatcher Msg) (m : Msg) :
    List (DispatchEvent Msg) :=
  [DispatchEvent.queued m]

/-- Model of `MsgDispatcher::batch`: `for msg in msgs { self.dispatch(msg) }`,
accumulating the emitted events in loop order. -/
def MsgDispatcher.batch {Msg : Type} (d : MsgDispatcher Msg) (ms : List Msg) :
    List (DispatchEvent Msg) :=
  ms.foldl (fun evs m => evs ++ d.dispatch m) []

/-- Model of `MsgDispatcher::queue_batch`:
`for msg in msgs { queue_microtask(move || self.dispatch(msg)) }`. -/
def MsgDispatcher.queue_batch {Msg : Type} (d : MsgDispatcher Msg) (ms : List Msg) :
    List (DispatchEvent Msg) :=
  ms.foldl (fun evs m => evs ++ d.queue_msg m) []

@[simp] theorem enumFromL_nil {α : Type} (k : Nat) :
    enumFromL k ([] : List α) = [] := rfl

@[simp] theorem enumFromL_cons {α : Type} (k : Nat) (a : α) (l : List α) :
    enumFromL k (a :: l) = (k, a) :: enumFromL (k + 1) l := rfl

@[simp] theorem extractT_nil {Msg : Type} (sel : Origin → Option Nat) :
    extractT sel ([] : List (Origin × Msg)) = [] := rfl

@[simp] theorem extractT_cons {Msg : Type} (sel : Origin → Option Nat)
    (e : Origin × Msg) (t : List (Origin × Msg)) :
    extractT sel (e :: t) = selEntry sel e ++ extractT sel t := rfl

@[simp] theorem extractT_append {Msg : Type} (sel : Origin → Option Nat)
    (t1 t2 : List (Origin × Msg)) :
    extractT sel (t1 ++ t2) = extractT sel t1 ++ extractT sel t2 := by
  induction t1 with
  | nil => simp
  | cons e t ih => simp [ih]

@[simp] theorem extractR_nil {Msg : Type} (sel : Origin → Option Nat)
    (contF : Nat → List Msg → List (Nat × Msg)) :
    extractR sel contF ([] : List (RTask Msg)) = [] := rfl

@[simp] theorem extractR_cons {Msg : Type} (sel : Origin → Option Nat)
    (contF : Nat → List Msg → List (Nat × Msg)) (t : RTask Msg)
    (r : List (RTask Msg)) :
    extractR sel contF (t :: r) = taskEntry sel contF t ++ extractR sel contF r := rfl

@[simp] theorem extractR_append {Msg : Type} (sel : Origin → Option Nat)
    (contF : Nat → List Msg → List (Nat × Msg)) (r1 r2 : List (RTask Msg)) :
    extractR sel contF (r1 ++ r2) = extractR sel contF r1 ++ extractR sel contF r2 := by
  induction r1 with
  | nil => simp
  | cons t r ih => simp [ih]

@[simp] theorem eePending_nil {Msg : Type} (i : Nat) :
    eePending i ([] : List (Nat × List Msg)) = [] := rfl

@[simp] theorem eePending_cons {Msg : Type} (i : Nat) (e : Nat × List Msg)
    (p : List (Nat × List Msg)) :
    eePending i (e :: p) = (if e.1 = i then enumFromL 0 e.2 else []) ++ eePending i p := rfl

@[simp] theorem eePending_append {Msg : Type} (i : Nat)
    (p1 p2 : List (Nat × List Msg)) :
    eePending i (p1 ++ p2) = eePending i p1 ++ eePending i p2 := by
  induction p1 with
  | nil => simp
  | cons e p ih => simp [ih]

@[simp] theorem pCount_nil {Msg : Type} (i : Nat) :
    pCount i ([] : List (Nat × List Msg)) = 0 := rfl

@[simp] theorem pCount_cons {Msg : Type} (i : Nat) (e : Nat × List Msg)
    (p : List (Nat × List Msg)) :
    pCount i (e :: p) = pCount1 i e + pCount i p := rfl

@[simp] theorem pCount_append {Msg : Type} (i : Nat)
    (p1 p2 : List (Nat × List Msg)) :
    pCount i (p1 ++ p2) = pCount i p1 + pCount i p2 := by
  induction p1 with
  | nil => simp
  | cons e p ih => simp [ih]; omega

@[simp] theorem contCount_nil {Msg : Type} (i : Nat) :
    contCount i ([] : List (RTask Msg)) = 0 := rfl

@[simp] theorem contCount_cons {Msg : Type} (i : Nat) (t : RTask Msg)
    (r : List (RTask Msg)) :
    contCount i (t :: r) = contCount1 i t + contCount i r := rfl

@[simp] theorem contCount_append {Msg : Type} (i : Nat) (r1 r2 : List (RTask Msg)) :
    contCount i (r1 ++ r2) = contCount i r1 + contCount i r2 := by
  induction r1 with
  | nil => simp
  | cons t r ih => simp [ih]; omega

@[simp] theorem dispCount_nil {Msg : Type} (i : Nat) :
    dispCount i ([] : List (RTask Msg)) = 0 := rfl

@[simp] theorem dispCount_cons {Msg : Type} (i : Nat) (t : RTask Msg)
    (r : List (RTask Msg)) :
    dispCount i (t :: r) = dispCount1 i t + dispCount i r := rfl

@[simp] theorem dispCount_append {Msg : Type} (i : Nat) (r1 r2 : List (RTask Msg)) :
    dispCount i (r1 ++ r2) = dispCount i r1 + dispCount i r2 := by
  induction r1 with
  | nil => simp
  | cons t r ih => simp [ih]; omega

@[simp] theorem tagMsgs_nil {Msg : Type} (k : Nat) :
    tagMsgs k ([] : List Msg) = [] := rfl

@[simp] theorem tagMsgs_cons {Msg : Type} (k : Nat) (m : Msg) (l : List Msg) :
    tagMsgs k (m :: l) = RTask.dispatchOne (Origin.fromQueue k) m :: tagMsgs (k + 1) l := rfl

@[simp] theorem tagCmds_nil {Msg : Type} (k : Nat) :
    tagCmds k ([] : List (List Msg)) = [] := rfl

@[simp] theorem tagCmds_cons {Msg : Type} (k : Nat) (c : List Msg)
    (l : List (List Msg)) :
    tagCmds k (c :: l) = (k, c) :: tagCmds (k + 1) l := rfl

@[simp] theorem tagStarts_nil {Msg : Type} (k : Nat) :
    tagStarts k ([] : List (List Msg)) = [] := rfl

@[simp] theorem tagStarts_cons {Msg : Type} (k : Nat) (c : List Msg)
    (l : List (List Msg)) :
    tagStarts k (c :: l) = RTask.effectStart k c :: tagStarts (k + 1) l := rfl

@[simp] theorem tagEffect_nil {Msg : Type} (i j : Nat) :
    tagEffect i j ([] : List Msg) = [] := rfl

@[simp] theorem tagEffect_cons {Msg : Type} (i j : Nat) (m : Msg) (l : List Msg) :
    tagEffect i j (m :: l) =
      RTask.dispatchOne (Origin.fromEffect i j) m :: tagEffect i (j + 1) l := rfl

@[simp] theorem selEntry_qSel_queue {Msg : Type} (k : Nat) (m : Msg) :
    selEntry qSel (Origin.fromQueue k, m) = [(k, m)] := rfl

@[simp] theorem selEntry_qSel_effect {Msg : Type} (i j : Nat) (m : Msg) :
    selEntry qSel (Origin.fromEffect i j, m) = [] := rfl

@[simp] theorem selEntry_eSel_queue {Msg : Type} (i k : Nat) (m : Msg) :
    selEntry (eSel i) (Origin.fromQueue k, m) = [] := rfl

theorem selEntry_eSel_effect {Msg : Type} (i i2 j : Nat) (m : Msg) :
    selEntry (eSel i) (Origin.fromEffect i2 j, m) =
      if i2 = i then [(j, m)] else [] := by
  by_cases h : i2 = i <;> simp [selEntry, eSel, h]

@[simp] theorem taskEntry_dispatchOne {Msg : Type} (sel : Origin → Option Nat)
    (contF : Nat → List Msg → List (Nat × Msg)) (o : Origin) (m : Msg) :
    taskEntry sel contF (RTask.dispatchOne o m) = selEntry sel (o, m) := rfl

@[simp] theorem taskEntry_effectCont {Msg : Type} (sel : Origin → Option Nat)
    (contF : Nat → List Msg → List (Nat × Msg)) (i : Nat) (ms : List Msg) :
    taskEntry sel contF (RTask.effectCont i ms) = contF i ms := rfl

@[simp] theorem taskEntry_effectStart {Msg : Type} (sel : Origin → Option Nat)
    (contF : Nat → List Msg → List (Nat × Msg)) (i : Nat) (ms : List Msg) :
    taskEntry sel contF (RTask.effectStart i ms) = contF i ms := rfl

theorem extractR_qSel_tagMsgs {Msg : Type} :
    ∀ (l : List Msg) (k : Nat), extractR qSel qCont (tagMsgs k l) = enumFromL k l := by
  intro l
  induction l with
  | nil => intro k; rfl
  | cons m l ih => intro k; simp [ih]

theorem extractR_eSel_tagMsgs {Msg : Type} (i : Nat) :
    ∀ (l : List Msg) (k : Nat), extractR (eSel i) (eCont i) (tagMsgs k l) = [] := by
  intro l
  induction l with
  | nil => intro k; rfl
  | cons m l ih => intro k; simp [ih]

theorem extractR_qSel_tagEffect {Msg : Type} :
    ∀ (l : List Msg) (i j : Nat), extractR qSel qCont (tagEffect i j l) = [] := by
  intro l
  induction l with
  | nil => intro i j; rfl
  | cons m l ih => intro i j; simp [ih]

theorem extractR_eSel_tagEffect_self {Msg : Type} (i : Nat) :
    ∀ (l : List Msg) (j : Nat),
      extractR (eSel i) (eCont i) (tagEffect i j l) = enumFromL j l := by
  intro l
  induction l with
  | nil => intro j; rfl
  | cons m l ih => intro j; simp [ih, selEntry_eSel_effect]

theorem extractR_eSel_tagEffect_ne {Msg : Type} {i i2 : Nat} (h : i2 ≠ i) :
    ∀ (l : List Msg) (j : Nat),
      extractR (eSel i) (eCont i) (tagEffect i2 j l) = [] := by
  intro l
  induction l with
  | nil => intro j; rfl
  | cons m l ih => intro j; simp [ih, selEntry_eSel_effect, h]

theorem contCount_tagMsgs {Msg : Type} (i : Nat) :
    ∀ (l : List Msg) (k : Nat), contCount i (tagMsgs k l) = 0 := by
  intro l
  induction l with
  | nil => intro k; rfl
  | cons m l ih => intro k; simp [ih, contCount1]

theorem dispCount_tagMsgs {Msg : Type} (i : Nat) :
    ∀ (l : List Msg) (k : Nat), dispCount i (tagMsgs k l) = 0 := by
  intro l
  induction l with
  | nil => intro k; rfl
  | cons m l ih => intro k; simp [ih, dispCount1]

theorem contCount_tagEffect {Msg : Type} (i i2 : Nat) :
    ∀ (l : List Msg) (j : Nat), contCount i (tagEffect i2 j l) = 0 := by
  intro l
  induction l with
  | nil => intro j; rfl
  | cons m l ih => intro j; simp [ih, contCount1]

theorem dispCount_tagEffect_ne {Msg : Type} {i i2 : Nat} (h : i2 ≠ i) :
    ∀ (l : List Msg) (j : Nat), dispCount i (tagEffect i2 j l) = 0 := by
  intro l
  induction l with
  | nil => intro j; rfl
  | cons m l ih => intro j; simp [ih, dispCount1, h]

theorem pCount_tagCmds_lt {Msg : Type} {i : Nat} :
    ∀ (cs : List (List Msg)) (k : Nat), i < k → pCount i (tagCmds k cs) = 0 := by
  intro cs
  induction cs with
  | nil => intro k _; rfl
  | cons c cs ih =>
    intro k hk
    have h1 : k ≠ i := by omega
    simp [pCount1, h1, ih (k + 1) (by omega)]

theorem pCount_tagCmds_le {Msg : Type} (i : Nat) :
    ∀ (cs : List (List Msg)) (k : Nat), pCount i (tagCmds k cs) ≤ 1 := by
  intro cs
  induction cs with
  | nil => intro k; simp
  | cons c cs ih =>
    intro k
    by_cases h : k = i
    · have h2 : pCount i (tagCmds (i + 1) cs) = 0 :=
        pCount_tagCmds_lt cs (i + 1) (by omega)
      simp [pCount1, h, h2]
    · simp [pCount1, h, ih (k + 1)]

theorem eePending_of_pCount {Msg : Type} {i : Nat} :
    ∀ {p : List (Nat × List Msg)}, pCount i p = 0 → eePending i p = [] := by
  intro p
  induction p with
  | nil => intro _; rfl
  | cons e p ih =>
    intro h
    simp only [pCount_cons, pCount1] at h
    by_cases he : e.1 = i
    · simp [he] at h
    · simp [he] at h ⊢
      exact ih h

theorem extractR_eSel_of_counts {Msg : Type} {i : Nat} :
    ∀ {r : List (RTask Msg)}, contCount i r = 0 → dispCount i r = 0 →
      extractR (eSel i) (eCont i) r = [] := by
  intro r
  induction r with
  | nil => intro _ _; rfl
  | cons t r ih =>
    intro hc hd
    simp only [contCount_cons, dispCount_cons] at hc hd
    have hc2 : contCount i r = 0 := by omega
    have hd2 : dispCount i r = 0 := by omega
    have hc1 : contCount1 i t = 0 := by omega
    have hd1 : dispCount1 i t = 0 := by omega
    cases t with
    | dispatchOne o m =>
      cases o with
      | fromQueue k => simp [ih hc2 hd2]
      | fromEffect i2 j =>
        have hne : i2 ≠ i := by
          intro hcon
          simp [dispCount1, hcon] at hd1
        simp [ih hc2 hd2, selEntry_eSel_effect, hne]
    | effectCont i2 ms =>
      have hne : i2 ≠ i := by
        intro hcon
        simp [contCount1, hcon] at hc1
      simp [ih hc2 hd2, eCont, hne]
    | effectStart i2 ms =>
      have hne : i2 ≠ i := by
        intro hcon
        simp [contCount1, hcon] at hc1
      simp [ih hc2 hd2, eCont, hne]

theorem eePending_tagCmds {Msg : Type} :
    ∀ (cs : List (List Msg)) (k j : Nat) (ms : List Msg), cs[j]? = some ms →
      eePending (k + j) (tagCmds k cs) = enumFromL 0 ms := by
  intro cs
  induction cs with
  | nil => intro k j ms h; simp at h
  | cons c cs ih =>
    intro k j ms h
    cases j with
    | zero =>
      simp at h
      subst h
      have h2 : eePending k (tagCmds (k + 1) cs) = [] :=
        eePending_of_pCount (pCount_tagCmds_lt cs (k + 1) (by omega))
      simp [h2]
    | succ j =>
      simp at h
      have hne : k ≠ k + (j + 1) := by omega
      have harith : k + (j + 1) = (k + 1) + j := by omega
      simp only [tagCmds_cons, eePending_cons, hne, if_false]
      rw [harith]
      simpa using ih (k + 1) j ms h

theorem extractR_qSel_tagStarts {Msg : Type} :
    ∀ (cs : List (List Msg)) (k : Nat), extractR qSel qCont (tagStarts k cs) = [] := by
  intro cs
  induction cs with
  | nil => intro k; rfl
  | cons c cs ih => intro k; simp [ih, qCont]

theorem extractR_eSel_tagStarts {Msg : Type} (i : Nat) :
    ∀ (cs : List (List Msg)) (k : Nat),
      extractR (eSel i) (eCont i) (tagStarts k cs) = eePending i (tagCmds k cs) := by
  intro cs
  induction cs with
  | nil => intro k; rfl
  | cons c cs ih => intro k; simp [ih, eCont]

theorem contCount_tagStarts_lt {Msg : Type} {i : Nat} :
    ∀ (cs : List (List Msg)) (k : Nat), i < k → contCount i (tagStarts k cs) = 0 := by
  intro cs
  induction cs with
  | nil => intro k _; rfl
  | cons c cs ih =>
    intro k hk
    have h1 : k ≠ i := by omega
    simp [contCount1, h1, ih (k + 1) (by omega)]

theorem contCount_tagStarts_le {Msg : Type} (i : Nat) :
    ∀ (cs : List (List Msg)) (k : Nat), contCount i (tagStarts k cs) ≤ 1 := by
  intro cs
  induction cs with
  | nil => intro k; simp
  | cons c cs ih =>
    intro k
    by_cases h : k = i
    · have h2 : contCount i (tagStarts (i + 1) cs) = 0 :=
        contCount_tagStarts_lt cs (i + 1) (by omega)
      simp [contCount1, h, h2]
    · simp [contCount1, h, ih (k + 1)]

theorem dispCount_tagStarts {Msg : Type} (i : Nat) :
    ∀ (cs : List (List Msg)) (k : Nat), dispCount i (tagStarts k cs) = 0 := by
  intro cs
  induction cs with
  | nil => intro k; rfl
  | cons c cs ih => intro k; simp [ih, dispCount1]

theorem tagStarts_eq_map {Msg : Type} :
    ∀ (cs : List (List Msg)) (k : Nat),
      tagStarts k cs =
        (enumFromL k cs).map (fun p => RTask.effectStart p.1 p.2) := by
  intro cs
  induction cs with
  | nil => intro k; rfl
  | cons c cs ih => intro k; simp [ih]

theorem takeAt_eq_some {α : Type} :
    ∀ (l : List α) (k : Nat) (x : α) (l2 : List α), takeAt l k = some (x, l2) →
      ∃ l1 l3, l = l1 ++ x :: l3 ∧ l2 = l1 ++ l3 := by
  intro l
  induction l with
  | nil => intro k x l2 h; simp [takeAt] at h
  | cons a t ih =>
    intro k x l2 h
    cases k with
    | zero =>
      simp [takeAt] at h
      exact ⟨[], t, by simp [h.1], by simp [h.2]⟩
    | succ k =>
      simp only [takeAt] at h
      cases htk : takeAt t k with
      | none => rw [htk] at h; simp at h
      | some yys =>
        obtain ⟨y, ys⟩ := yys
        rw [htk] at h
        simp only [Option.some.injEq, Prod.mk.injEq] at h
        obtain ⟨hx, hl2⟩ := h
        obtain ⟨l1, l3, ht, hys⟩ := ih k y ys htk
        refine ⟨a :: l1, l3, ?_, ?_⟩
        · rw [← hx]
          simp [ht]
        · rw [← hl2, hys]
          simp

theorem enumFromL_mem_lt {α : Type} :
    ∀ (l : List α) (k j : Nat) (a : α), (j, a) ∈ enumFromL k l → j < k + l.length := by
  intro l
  induction l with
  | nil => intro k j a h; simp at h
  | cons b t ih =>
    intro k j a h
    simp only [enumFromL_cons, List.mem_cons] at h
    rcases h with h | h
    · have : j = k := by
        have := congrArg Prod.fst h
        simpa using this
      simp [this]
    · have := ih (k + 1) j a h
      simp only [List.length_cons]
      omega

theorem enumFromL_mem_of_getElem {α : Type} :
    ∀ (l : List α) (k j : Nat) (a : α), l[j]? = some a →
      (k + j, a) ∈ enumFromL k l := by
  intro l
  induction l with
  | nil => intro k j a h; simp at h
  | cons b t ih =>
    intro k j a h
    cases j with
    | zero =>
      simp at h
      simp [h]
    | succ j =>
      simp at h
      have hm := ih (k + 1) j a h
      have harith : k + (j + 1) = (k + 1) + j := by omega
      rw [harith]
      exact List.mem_cons_of_mem _ hm

theorem enumFromL_split {α : Type} :
    ∀ (l : List α) (k j : Nat) (a : α), l[j]? = some a →
      enumFromL k l =
        enumFromL k (l.take j) ++ (k + j, a) :: enumFromL (k + j + 1) (l.drop (j + 1)) := by
  intro l
  induction l with
  | nil => intro k j a h; simp at h
  | cons b t ih =>
    intro k j a h
    cases j with
    | zero =>
      simp at h
      simp [h]
    | succ j =>
      simp at h
      have hsplit := ih (k + 1) j a h
      have h1 : k + (j + 1) = (k + 1) + j := by omega
      have h2 : k + (j + 1) + 1 = (k + 1) + j + 1 := by omega
      simp only [List.take_succ_cons, List.drop_succ_cons, enumFromL_cons, h1, h2]
      rw [hsplit]
      simp

@[simp] theorem runTask_dispatchOne {Msg : Type} (s : Sched Msg) (o : Origin) (m : Msg) :
    runTask s (RTask.dispatchOne o m) = { s with trace := s.trace ++ [(o, m)] } := rfl

@[simp] theorem runTask_effectCont_nil {Msg : Type} (s : Sched Msg) (i : Nat) :
    runTask s (RTask.effectCont i []) = s := rfl

@[simp] theorem runTask_effectCont_cons {Msg : Type} (s : Sched Msg) (i : Nat)
    (m : Msg) (rest : List Msg) :
    runTask s (RTask.effectCont i (m :: rest)) =
      { s with
        ready := s.ready ++ tagEffect i 1 rest,
        trace := s.trace ++ [(Origin.fromEffect i 0, m)] } := rfl

theorem step_resolve_none {Msg : Type} {s : Sched Msg} {k : Nat}
    (h : takeAt s.pending k = none) : step s (Choice.resolve k) = s := by
  simp [step, h]

theorem step_resolve_some {Msg : Type} {s : Sched Msg} {k : Nat}
    {e : Nat × List Msg} {p : List (Nat × List Msg)}
    (h : takeAt s.pending k = some (e, p)) :
    step s (Choice.resolve k) =
      { s with pending := p, ready := s.ready ++ [RTask.effectCont e.1 e.2] } := by
  simp [step, h]

theorem step_runNext_nil {Msg : Type} {s : Sched Msg} (h : s.ready = [])
    (b : Bool) : step s (Choice.runNext b) = s := by
  simp [step, h]

theorem step_runNext_suspend {Msg : Type} {s : Sched Msg} {i : Nat}
    {ms : List Msg} {r : List (RTask Msg)}
    (h : s.ready = RTask.effectStart i ms :: r) :
    step s (Choice.runNext false) =
      { s with pending := s.pending ++ [(i, ms)], ready := r } := by
  simp [step, h]

theorem step_runNext_start {Msg : Type} {s : Sched Msg} {i : Nat}
    {ms : List Msg} {r : List (RTask Msg)}
    (h : s.ready = RTask.effectStart i ms :: r) :
    step s (Choice.runNext true) =
      runTask { s with ready := r } (RTask.effectCont i ms) := by
  simp [step, h]

theorem step_runNext_cont {Msg : Type} {s : Sched Msg} {i : Nat}
    {ms : List Msg} {r : List (RTask Msg)}
    (h : s.ready = RTask.effectCont i ms :: r) (b : Bool) :
    step s (Choice.runNext b) =
      runTask { s with ready := r } (RTask.effectCont i ms) := by
  simp [step, h]

theorem step_runNext_dispatch {Msg : Type} {s : Sched Msg} {o : Origin}
    {m : Msg} {r : List (RTask Msg)}
    (h : s.ready = RTask.dispatchOne o m :: r) (b : Bool) :
    step s (Choice.runNext b) =
      runTask { s with ready := r } (RTask.dispatchOne o m) := by
  simp [step, h]

theorem combQ_runCont {Msg : Type} (s : Sched Msg) (i : Nat) (ms : List Msg)
    (r : List (RTask Msg)) :
    combQ (runTask { s with ready := r } (RTask.effectCont i ms)) =
      qeTrace s.trace ++ extractR qSel qCont r := by
  cases ms with
  | nil => simp [combQ]
  | cons m rest => simp [combQ, qeTrace, extractR_qSel_tagEffect]

theorem combQ_step {Msg : Type} (s : Sched Msg) (c : Choice) :
    combQ (step s c) = combQ s := by
  cases c with
  | resolve k =>
    cases h : takeAt s.pending k with
    | none => rw [step_resolve_none h]
    | some ep =>
      obtain ⟨e, p⟩ := ep
      rw [step_resolve_some h]
      simp [combQ, qCont]
  | runNext b =>
    cases h : s.ready with
    | nil => rw [step_runNext_nil h b]
    | cons t r =>
      cases t with
      | dispatchOne o m =>
        rw [step_runNext_dispatch h b]
        simp [combQ, h, qeTrace]
      | effectCont i ms =>
        rw [step_runNext_cont h b, combQ_runCont]
        simp [combQ, h, qCont]
      | effectStart i ms =>
        cases b with
        | false =>
          rw [step_runNext_suspend h]
          simp [combQ, h, qCont]
        | true =>
          rw [step_runNext_start h, combQ_runCont]
          simp [combQ, h, qCont]

theorem invEff_runCont {Msg : Type} {i : Nat} {s : Sched Msg} {i2 : Nat}
    {ms : List Msg} {r : List (RTask Msg)}
    (h1 : pCount i s.pending + ((if i2 = i then 1 else 0) + contCount i r) ≤ 1)
    (h2 : 1 ≤ pCount i s.pending + ((if i2 = i then 1 else 0) + contCount i r) →
      dispCount i r = 0) :
    invEff i (runTask { s with ready := r } (RTask.effectCont i2 ms)) := by
  cases ms with
  | nil =>
    simp only [runTask_effectCont_nil, invEff]
    refine ⟨by omega, fun hsum => h2 (by omega)⟩
  | cons m rest =>
    simp only [runTask_effectCont_cons, invEff, contCount_append,
      contCount_tagEffect, dispCount_append, Nat.add_zero]
    by_cases hi : i2 = i
    · rw [if_pos hi] at h1 h2
      refine ⟨by omega, fun hsum => ?_⟩
      omega
    · rw [if_neg hi] at h1 h2
      refine ⟨by omega, fun hsum => ?_⟩
      have hd := h2 (by omega)
      have htag : dispCount i (tagEffect i2 1 rest) = 0 :=
        dispCount_tagEffect_ne hi rest 1
      omega

theorem invEff_step {Msg : Type} {i : Nat} {s : Sched Msg} (h : invEff i s)
    (c : Choice) : invEff i (step s c) := by
  obtain ⟨h1, h2⟩ := h
  cases c with
  | resolve k =>
    cases htk : takeAt s.pending k with
    | none => rw [step_resolve_none htk]; exact ⟨h1, h2⟩
    | some ep =>
      obtain ⟨e, p⟩ := ep
      rw [step_resolve_some htk]
      obtain ⟨l1, l3, hpend, hp⟩ := takeAt_eq_some _ _ _ _ htk
      subst hp
      rw [hpend] at h1 h2
      have hcp : contCount1 i (RTask.effectCont e.1 e.2) = pCount1 i e := rfl
      have hdp : dispCount1 i (RTask.effectCont e.1 e.2) = 0 := rfl
      constructor
      · simp only [pCount_append, pCount_cons, contCount_append, contCount_cons,
          contCount_nil, hcp] at h1 ⊢
        omega
      · intro hsum
        simp only [dispCount_append, dispCount_cons, dispCount_nil, hdp,
          Nat.add_zero]
        apply h2
        simp only [pCount_append, pCount_cons, contCount_append, contCount_cons,
          contCount_nil, hcp, Nat.add_zero] at hsum ⊢
        omega
  | runNext b =>
    cases hready : s.ready with
    | nil => rw [step_runNext_nil hready b]; exact ⟨h1, h2⟩
    | cons t r =>
      rw [hready] at h1 h2
      cases t with
      | dispatchOne o m =>
        rw [step_runNext_dispatch hready b]
        have hc1 : contCount1 i (RTask.dispatchOne o m) = 0 := rfl
        simp only [contCount_cons, hc1, Nat.zero_add, dispCount_cons] at h1 h2
        simp only [runTask_dispatchOne, invEff]
        refine ⟨h1, fun hsum => ?_⟩
        have hd := h2 hsum
        omega
      | effectCont i2 ms =>
        rw [step_runNext_cont hready b]
        have hc1 : contCount1 i (RTask.effectCont i2 ms) =
          if i2 = i then 1 else 0 := rfl
        have hd1 : dispCount1 i (RTask.effectCont i2 ms) = 0 := rfl
        simp only [contCount_cons, dispCount_cons, hc1, hd1, Nat.zero_add] at h1 h2
        exact invEff_runCont h1 h2
      | effectStart i2 ms =>
        have hc1 : contCount1 i (RTask.effectStart i2 ms) =
          if i2 = i then 1 else 0 := rfl
        have hd1 : dispCount1 i (RTask.effectStart i2 ms) = 0 := rfl
        simp only [contCount_cons, dispCount_cons, hc1, hd1, Nat.zero_add] at h1 h2
        cases b with
        | true =>
          rw [step_runNext_start hready]
          exact invEff_runCont h1 h2
        | false =>
          rw [step_runNext_suspend hready]
          simp only [invEff, pCount_append, pCount_cons, pCount_nil, Nat.add_zero]
          have hpc : pCount1 i (i2, ms) = if i2 = i then 1 else 0 := rfl
          rw [hpc]
          refine ⟨by omega, fun hsum => ?_⟩
          exact h2 (by omega)

theorem combE_runCont {Msg : Type} {i : Nat} (s : Sched Msg) (i2 : Nat)
    (ms : List Msg) (r : List (RTask Msg))
    (hz : i2 = i → pCount i s.pending = 0 ∧ contCount i r = 0 ∧
      dispCount i r = 0) :
    combE i (runTask { s with ready := r } (RTask.effectCont i2 ms)) =
      eeTrace i s.trace ++ (eCont i i2 ms ++ extractR (eSel i) (eCont i) r) ++
        eePending i s.pending := by
  cases ms with
  | nil => simp [combE, eCont]
  | cons m rest =>
    by_cases hi : i2 = i
    · obtain ⟨hp0, hc0, hd0⟩ := hz hi
      have hrz := extractR_eSel_of_counts hc0 hd0
      have hpz := eePending_of_pCount hp0
      subst hi
      simp [combE, eeTrace, hrz, hpz, eCont, extractR_eSel_tagEffect_self,
        selEntry_eSel_effect]
    · simp [combE, eeTrace, eCont, hi, extractR_eSel_tagEffect_ne hi,
        selEntry_eSel_effect]

theorem combE_step {Msg : Type} {i : Nat} {s : Sched Msg} (h : invEff i s)
    (c : Choice) : combE i (step s c) = combE i s := by
  obtain ⟨h1, h2⟩ := h
  cases c with
  | resolve k =>
    cases htk : takeAt s.pending k with
    | none => rw [step_resolve_none htk]
    | some ep =>
      obtain ⟨e, p⟩ := ep
      rw [step_resolve_some htk]
      obtain ⟨l1, l3, hpend, hp⟩ := takeAt_eq_some _ _ _ _ htk
      subst hp
      by_cases hi : e.1 = i
      · have hpc : pCount1 i e = 1 := by simp [pCount1, hi]
        rw [hpend] at h1
        simp only [pCount_append, pCount_cons, hpc] at h1
        have hl1 : eePending i l1 = [] := eePending_of_pCount (by omega)
        have hl3 : eePending i l3 = [] := eePending_of_pCount (by omega)
        simp [combE, hpend, hl1, hl3, hi, eCont]
      · simp [combE, hpend, hi, eCont]
  | runNext b =>
    cases hready : s.ready with
    | nil => rw [step_runNext_nil hready b]
    | cons t r =>
      cases t with
      | dispatchOne o m =>
        rw [step_runNext_dispatch hready b]
        simp [combE, hready, eeTrace]
      | effectCont i2 ms =>
        rw [hready] at h1 h2
        have hc1 : contCount1 i (RTask.effectCont i2 ms) =
          if i2 = i then 1 else 0 := rfl
        have hd1 : dispCount1 i (RTask.effectCont i2 ms) = 0 := rfl
        simp only [contCount_cons, dispCount_cons, hc1, hd1, Nat.zero_add] at h1 h2
        have hz : i2 = i → pCount i s.pending = 0 ∧ contCount i r = 0 ∧
            dispCount i r = 0 := by
          intro hi
          rw [if_pos hi] at h1 h2
          exact ⟨by omega, by omega, h2 (by omega)⟩
        rw [step_runNext_cont hready b, combE_runCont s i2 ms r hz]
        simp [combE, hready]
      | effectStart i2 ms =>
        rw [hready] at h1 h2
        have hc1 : contCount1 i (RTask.effectStart i2 ms) =
          if i2 = i then 1 else 0 := rfl
        have hd1 : dispCount1 i (RTask.effectStart i2 ms) = 0 := rfl
        simp only [contCount_cons, dispCount_cons, hc1, hd1, Nat.zero_add] at h1 h2
        have hz : i2 = i → pCount i s.pending = 0 ∧ contCount i r = 0 ∧
            dispCount i r = 0 := by
          intro hi
          rw [if_pos hi] at h1 h2
          exact ⟨by omega, by omega, h2 (by omega)⟩
        cases b with
        | true =>
          rw [step_runNext_start hready, combE_runCont s i2 ms r hz]
          simp [combE, hready]
        | false =>
          rw [step_runNext_suspend hready]
          by_cases hi : i2 = i
          · obtain ⟨hp0, hc0, hd0⟩ := hz hi
            have hrz := extractR_eSel_of_counts hc0 hd0
            have hpz := eePending_of_pCount hp0
            subst hi
            simp [combE, hready, hrz, hpz, eCont]
          · simp [combE, hready, eCont, hi]

theorem combQ_runChoices {Msg : Type} :
    ∀ (cs : List Choice) (s : Sched Msg), combQ (runChoices s cs) = combQ s := by
  intro cs
  induction cs with
  | nil => intro s; rfl
  | cons c cs ih =>
    intro s
    have hstep : runChoices s (c :: cs) = runChoices (step s c) cs := rfl
    rw [hstep, ih (step s c), combQ_step]

theorem combE_runChoices {Msg : Type} {i : Nat} :
    ∀ (cs : List Choice) (s : Sched Msg), invEff i s →
      combE i (runChoices s cs) = combE i s ∧ invEff i (runChoices s cs) := by
  intro cs
  induction cs with
  | nil => intro s h; exact ⟨rfl, h⟩
  | cons c cs ih =>
    intro s h
    have hstep : runChoices s (c :: cs) = runChoices (step s c) cs := rfl
    have hrec := ih (step s c) (invEff_step h c)
    exact ⟨by rw [hstep, hrec.1, combE_step h c], hrec.2⟩

theorem step_of_empty {Msg : Type} {s : Sched Msg} (hp : s.pending = [])
    (hr : s.ready = []) (c : Choice) : step s c = s := by
  cases c with
  | resolve k =>
    apply step_resolve_none
    rw [hp]
    rfl
  | runNext b => exact step_runNext_nil hr b

theorem runChoices_of_empty {Msg : Type} :
    ∀ (cs : List Choice) (s : Sched Msg), s.pending = [] → s.ready = [] →
      runChoices s cs = s := by
  intro cs
  induction cs with
  | nil => intro s _ _; rfl
  | cons c cs ih =>
    intro s hp hr
    have hstep : runChoices s (c :: cs) = runChoices (step s c) cs := rfl
    rw [hstep, step_of_empty hp hr, ih s hp hr]

theorem invEff_flushInit {Msg : Type} (i : Nat) (q : Cmd Msg) :
    invEff i (flushInit q) := by
  constructor
  · simp [flushInit, contCount_tagMsgs, contCount_tagStarts_le]
  · intro _
    simp [flushInit, dispCount_tagMsgs, dispCount_tagStarts]

theorem combE_flushInit {Msg : Type} (i : Nat) (q : Cmd Msg) :
    combE i (flushInit q) = eePending i (tagCmds 0 q.cmds) := by
  simp [combE, flushInit, eeTrace, extractR_eSel_tagMsgs, extractR_eSel_tagStarts]

theorem combQ_flushInit {Msg : Type} (q : Cmd Msg) :
    combQ (flushInit q) = enumFromL 0 q.msgs := by
  simp [combQ, flushInit, qeTrace, extractR_qSel_tagMsgs, extractR_qSel_tagStarts]

theorem svExtend_eq_append {α : Type} (l : List α) :
    ∀ v : List α, svExtend v l = v ++ l := by
  induction l with
  | nil => intro v; simp [svExtend]
  | cons a l ih =>
    intro v
    have h1 : svExtend v (a :: l) = svExtend (v ++ [a]) l := rfl
    rw [h1, ih]
    simp

theorem svCollect_eq {α : Type} (l : List α) : svCollect l = l := by
  simp [svCollect, svExtend_eq_append]

theorem foldl_append_map {α β : Type} (f : α → β) :
    ∀ (l : List α) (init : List β),
      l.foldl (fun acc a => acc ++ [f a]) init = init ++ l.map f := by
  intro l
  induction l with
  | nil => intro init; simp
  | cons a l ih => intro init; simp [List.foldl_cons, ih]

theorem dropPrims_eq {Msg : Type} (q : Cmd Msg) :
    Cmd.dropPrims q =
      q.cmds.map FlushPrim.spawnLocal ++ q.msgs.map FlushPrim.queueMicrotask := by
  show q.msgs.foldl (fun ps m => ps ++ [FlushPrim.queueMicrotask m])
      (q.cmds.foldl (fun ps c => ps ++ [FlushPrim.spawnLocal c]) []) = _
  rw [foldl_append_map, foldl_append_map]
  simp

/-- Claim C6: `batch_msgs(iterable)` leaves the queue in exactly the state
of calling `msg` once per element in the iterable's order — every element
is appended to the pending-message list, order preserved, and nothing else
(pending effects, bound dispatcher) changes. -/
theorem claim_C6 {Msg : Type} (q : Cmd Msg) (ms : List Msg) :
    Cmd.batch_msgs q ms = ms.foldl Cmd.msg q ∧
    (Cmd.batch_msgs q ms).msgs = q.msgs ++ ms ∧
    (Cmd.batch_msgs q ms).cmds = q.cmds ∧
    (Cmd.batch_msgs q ms).msg_dispatcher = q.msg_dispatcher := by
  refine ⟨?_, ?_, rfl, rfl⟩
  · induction ms generalizing q with
    | nil => rfl
    | cons m ms ih =>
      show Cmd.batch_msgs (Cmd.msg q m) ms = (m :: ms).foldl Cmd.msg q
      rw [ih]
      rfl
  · show svExtend q.msgs ms = q.msgs ++ ms
    exact svExtend_eq_append ms q.msgs

/-- Claim C7: `MsgDispatcher::batch` dispatches each element of the
iterable in order, synchronously and back-to-back — the emitted event
sequence is exactly one immediate write per element, in iterable order,
with nothing else interleaved. -/
theorem claim_C7 {Msg : Type} (d : MsgDispatcher Msg) (ms : List Msg) :
    d.batch ms = ms.map DispatchEvent.now ∧
    ∀ e ∈ d.batch ms, ∃ m, e = DispatchEvent.now m := by
  have h : d.batch ms = ms.map DispatchEvent.now := by
    show ms.foldl (fun evs m => evs ++ d.dispatch m) [] = _
    have h2 : ∀ (l : List Msg) (init : List (DispatchEvent Msg)),
        l.foldl (fun evs m => evs ++ d.dispatch m) init =
          init ++ l.map DispatchEvent.now := by
      intro l
      induction l with
      | nil => intro init; simp
      | cons a l ih =>
        intro init
        rw [List.foldl_cons, ih]
        simp [MsgDispatcher.dispatch, MsgDispatcher.set]
    simpa using h2 ms []
  refine ⟨h, ?_⟩
  intro e he
  rw [h] at he
  rcases List.mem_map.mp he with ⟨m, _, hm⟩
  exact ⟨m, hm.symm⟩

/-- Claim C8: `MsgDispatcher::queue_batch` schedules, per element in
iterable order, one independent microtask dispatching exactly that one
message — it emits the same events as calling `queue_msg` once per element
in order, and no event is an immediate (synchronous) dispatch. -/
theorem claim_C8 {Msg : Type} (d : MsgDispatcher Msg) (ms : List Msg) :
    d.queue_batch ms = ms.map DispatchEvent.queued ∧
    d.queue_batch ms = (ms.map d.queue_msg).flatten ∧
    ∀ e ∈ d.queue_batch ms, ∃ m, e = DispatchEvent.queued m := by
  have h : d.queue_batch ms = ms.map DispatchEvent.queued := by
    show ms.foldl (fun evs m => evs ++ d.queue_msg m) [] = _
    have h2 : ∀ (l : List Msg) (init : List (DispatchEvent Msg)),
        l.foldl (fun evs m => evs ++ d.queue_msg m) init =
          init ++ l.map DispatchEvent.queued := by
      intro l
      induction l with
      | nil => intro init; simp
      | cons a l ih =>
        intro init
        rw [List.foldl_cons, ih]
        simp [MsgDispatcher.queue_msg]
    simpa using h2 ms []
  refine ⟨h, ?_, ?_⟩
  · rw [h]
    clear h
    induction ms with
    | nil => rfl
    | cons a l ih => simp [MsgDispatcher.queue_msg, ih]
  · intro e he
    rw [h] at he
    rcases List.mem_map.mp he with ⟨m, _, hm⟩
    exact ⟨m, hm.symm⟩

/-- Claim C10: each builder method mutates only its own list and leaves the
rest of the queue unchanged — `msg`/`batch_msgs` only append to the pending
messages, `cmd` only appends the (order-preservingly collected) effect to
the pending effects, and the bound dispatcher is never touched.  In the
embedding the builder methods return only the updated queue and emit no
dispatch event, which models that no dispatch happens at call time; the
returned value is the same queue, which is what enables chaining. -/
theorem claim_C10 {Msg : Type} (q : Cmd Msg) (m : Msg) (ms fut : List Msg) :
    (Cmd.msg q m).msg_dispatcher = q.msg_dispatcher ∧
    (Cmd.msg q m).cmds = q.cmds ∧
    (Cmd.msg q m).msgs = q.msgs ++ [m] ∧
    (Cmd.batch_msgs q ms).msg_dispatcher = q.msg_dispatcher ∧
    (Cmd.batch_msgs q ms).cmds = q.cmds ∧
    (Cmd.batch_msgs q ms).msgs = q.msgs ++ ms ∧
    (Cmd.cmd q fut).msg_dispatcher = q.msg_dispatcher ∧
    (Cmd.cmd q fut).msgs = q.msgs ∧
    (Cmd.cmd q fut).cmds = q.cmds ++ [fut] ∧
    svCollect fut = fut := by
  refine ⟨rfl, rfl, rfl, rfl, rfl, ?_, rfl, rfl, ?_, svCollect_eq fut⟩
  · exact svExtend_eq_append ms q.msgs
  · show svPush q.cmds (svCollect fut) = q.cmds ++ [fut]
    rw [svCollect_eq]
    rfl

theorem tagCmds_map_snd {Msg : Type} :
    ∀ (cs : List (List Msg)) (k : Nat), (tagCmds k cs).map Prod.snd = cs := by
  intro cs
  induction cs with
  | nil => intro k; rfl
  | cons c cs ih => intro k; simp [ih]

theorem tagEffect_eq_map {Msg : Type} :
    ∀ (l : List Msg) (i j : Nat),
      tagEffect i j l =
        (enumFromL j l).map
          (fun p => RTask.dispatchOne (Origin.fromEffect i p.1) p.2) := by
  intro l
  induction l with
  | nil => intro i j; rfl
  | cons m l ih => intro i j; simp [ih]

theorem extractT_split {Msg : Type} {sel : Origin → Option Nat} :
    ∀ (t : List (Origin × Msg)) (l1 : List (Nat × Msg)) (j : Nat) (m : Msg)
      (l2 : List (Nat × Msg)), extractT sel t = l1 ++ (j, m) :: l2 →
      ∃ t1 o t2, t = t1 ++ (o, m) :: t2 ∧ sel o = some j ∧
        extractT sel t1 = l1 ∧ extractT sel t2 = l2 := by
  intro t
  induction t with
  | nil =>
    intro l1 j m l2 h
    simp only [extractT_nil] at h
    exact absurd h (by simp)
  | cons e t ih =>
    intro l1 j m l2 h
    obtain ⟨o0, m0⟩ := e
    rw [extractT_cons] at h
    cases hsel : sel o0 with
    | none =>
      rw [show selEntry sel (o0, m0) = [] from by simp [selEntry, hsel]] at h
      rw [List.nil_append] at h
      obtain ⟨t1, o, t2, ht, ho, hx1, hx2⟩ := ih l1 j m l2 h
      exact ⟨(o0, m0) :: t1, o, t2, by simp [ht], ho,
        by simp [selEntry, hsel, hx1], hx2⟩
    | some j0 =>
      rw [show selEntry sel (o0, m0) = [(j0, m0)] from by simp [selEntry, hsel]] at h
      cases l1 with
      | nil =>
        simp only [List.nil_append, List.singleton_append, List.cons.injEq,
          Prod.mk.injEq] at h
        obtain ⟨⟨hj, hm⟩, hrest⟩ := h
        refine ⟨[], o0, t, by simp [hm], ?_, rfl, hrest⟩
        rw [hsel, hj]
      | cons x l1' =>
        simp only [List.singleton_append, List.cons_append, List.cons.injEq] at h
        obtain ⟨hx, h'⟩ := h
        obtain ⟨t1, o, t2, ht, ho, hx1, hx2⟩ := ih l1' j m l2 h'
        refine ⟨(o0, m0) :: t1, o, t2, by simp [ht], ho, ?_, hx2⟩
        simp [selEntry, hsel, hx1, hx]

theorem extractT_mem {Msg : Type} {sel : Origin → Option Nat} :
    ∀ (t : List (Origin × Msg)) (j : Nat) (m : Msg), (j, m) ∈ extractT sel t →
      ∃ o, (o, m) ∈ t ∧ sel o = some j := by
  intro t
  induction t with
  | nil => intro j m h; simp at h
  | cons e t ih =>
    intro j m h
    obtain ⟨o0, m0⟩ := e
    rw [extractT_cons, List.mem_append] at h
    rcases h with h | h
    · cases hsel : sel o0 with
      | none => rw [show selEntry sel (o0, m0) = [] from by simp [selEntry, hsel]] at h; simp at h
      | some j0 =>
        rw [show selEntry sel (o0, m0) = [(j0, m0)] from by simp [selEntry, hsel]] at h
        simp only [List.mem_singleton, Prod.mk.injEq] at h
        obtain ⟨hj, hm⟩ := h
        exact ⟨o0, by simp [hm], by rw [hsel, hj]⟩
    · obtain ⟨o, hmem, ho⟩ := ih j m h
      exact ⟨o, List.mem_cons_of_mem _ hmem, ho⟩

theorem mem_extractT {Msg : Type} {sel : Origin → Option Nat} :
    ∀ (t : List (Origin × Msg)) (o : Origin) (m : Msg) (j : Nat), (o, m) ∈ t →
      sel o = some j → (j, m) ∈ extractT sel t := by
  intro t
  induction t with
  | nil => intro o m j h _; simp at h
  | cons e t ih =>
    intro o m j h hsel
    rw [List.mem_cons] at h
    rw [extractT_cons, List.mem_append]
    rcases h with h | h
    · left
      rw [← h]
      simp [selEntry, hsel]
    · right
      exact ih o m j h hsel

theorem extract_enum_before {Msg : Type} (sel : Origin → Option Nat)
    (orig : Nat → Origin) (hsel : ∀ o j, sel o = some j → o = orig j)
    (t : List (Origin × Msg)) (ms : List Msg)
    (hext : extractT sel t = enumFromL 0 ms) (j1 j2 : Nat) (h12 : j1 < j2)
    (h2 : j2 < ms.length) : beforeIn t (orig j1) (orig j2) := by
  have ha : ms[j2]? = some ms[j2] := List.getElem?_eq_getElem h2
  have hsplit := enumFromL_split ms 0 j2 ms[j2] ha
  rw [hsplit, Nat.zero_add] at hext
  obtain ⟨t1, o, t2, ht, ho, hx1, _⟩ := extractT_split t _ j2 _ _ hext
  have ho2 : o = orig j2 := hsel o j2 ho
  have hlen : (ms.take j2).length = j2 := by
    rw [List.length_take]
    omega
  have hj1len : j1 < (ms.take j2).length := by omega
  have hj1a : (ms.take j2)[j1]? = some (ms.take j2)[j1] :=
    List.getElem?_eq_getElem hj1len
  have hmem1 := enumFromL_mem_of_getElem (ms.take j2) 0 j1 _ hj1a
  rw [Nat.zero_add, ← hx1] at hmem1
  obtain ⟨o1, ho1mem, ho1sel⟩ := extractT_mem t1 _ _ hmem1
  have ho1 : o1 = orig j1 := hsel _ _ ho1sel
  refine ⟨t1, (o, ms[j2]) :: t2, ht, ⟨_, ho1 ▸ ho1mem⟩,
    ⟨ms[j2], by rw [ho2]; exact List.mem_cons_self _ _⟩, ?_⟩
  intro m hm
  have hsel2 : sel (orig j2) = some j2 := by rw [← ho2]; exact ho
  have hmem2 := mem_extractT t1 _ _ _ hm hsel2
  rw [hx1] at hmem2
  have := enumFromL_mem_lt _ 0 j2 m hmem2
  omega

/-- Claim C1: at flush, the pending effects are handed to the async task
spawner in registration order — the flush state's ready queue starts with
one spawned task per effect, in registration order, ahead of the message
callbacks; a spawned task awaits its effect (a suspending first poll parks
it in the pending pool until resolution); once the result is available,
the task dispatches the first message of a non-empty result immediately,
within that same continuation, through the bound dispatcher, and spawns
one further independent single-dispatch task per remaining message, in
order; a single-dispatch task, when run, dispatches exactly its one
message and does nothing else. -/
theorem claim_C1 {Msg : Type} (q : Cmd Msg) (s : Sched Msg) (i : Nat) (m : Msg)
    (rest : List Msg) (r : List (RTask Msg))
    (hs : s.ready = RTask.effectCont i (m :: rest) :: r) :
    (flushInit q).ready = tagStarts 0 q.cmds ++ tagMsgs 0 q.msgs ∧
    tagStarts 0 q.cmds =
      (enumFromL 0 q.cmds).map (fun p => RTask.effectStart p.1 p.2) ∧
    (∀ (s1 : Sched Msg) (i1 : Nat) (ms1 : List Msg) (r1 : List (RTask Msg)),
      s1.ready = RTask.effectStart i1 ms1 :: r1 →
      step s1 (Choice.runNext false) =
        { s1 with pending := s1.pending ++ [(i1, ms1)], ready := r1 } ∧
      step s1 (Choice.runNext true) =
        runTask { s1 with ready := r1 } (RTask.effectCont i1 ms1)) ∧
    (step s (Choice.runNext true)).trace =
      s.trace ++ [(Origin.fromEffect i 0, m)] ∧
    (step s (Choice.runNext true)).ready = r ++ tagEffect i 1 rest ∧
    tagEffect i 1 rest =
      (enumFromL 1 rest).map
        (fun p => RTask.dispatchOne (Origin.fromEffect i p.1) p.2) ∧
    (∀ (s2 : Sched Msg) (o : Origin) (m2 : Msg) (r2 : List (RTask Msg))
      (b : Bool), s2.ready = RTask.dispatchOne o m2 :: r2 →
      step s2 (Choice.runNext b) =
        { s2 with ready := r2, trace := s2.trace ++ [(o, m2)] }) := by
  refine ⟨rfl, tagStarts_eq_map q.cmds 0, ?_, ?_, ?_,
    tagEffect_eq_map rest i 1, ?_⟩
  · intro s1 i1 ms1 r1 hs1
    exact ⟨step_runNext_suspend hs1, step_runNext_start hs1⟩
  · rw [step_runNext_cont hs true]
    rfl
  · rw [step_runNext_cont hs true]
    rfl
  · intro s2 o m2 r2 b hs2
    rw [step_runNext_dispatch hs2 b]
    rfl

/-- Witness for claim C1 at a concrete state whose ready head is the
continuation of effect 0 with result `[5, 6]`. -/
theorem claim_C1_witness :
    (⟨[], [RTask.effectCont 0 [5, 6]], []⟩ : Sched Nat).ready =
      RTask.effectCont 0 (5 :: [6]) :: [] ∧
    ((flushInit (⟨0, [], [[1]]⟩ : Cmd Nat)).ready =
        tagStarts 0 [[1]] ++ tagMsgs 0 [] ∧
      tagStarts 0 ([[1]] : List (List Nat)) =
        (enumFromL 0 [[1]]).map (fun p => RTask.effectStart p.1 p.2) ∧
      (step (⟨[], [RTask.effectCont 0 [5, 6]], []⟩ : Sched Nat)
          (Choice.runNext true)).trace = [] ++ [(Origin.fromEffect 0 0, 5)] ∧
      (step (⟨[], [RTask.effectCont 0 [5, 6]], []⟩ : Sched Nat)
          (Choice.runNext true)).ready = [] ++ tagEffect 0 1 [6] ∧
      tagEffect 0 1 [6] =
        (enumFromL 1 [6]).map
          (fun p => RTask.dispatchOne (Origin.fromEffect 0 p.1) p.2)) := by
  have h := claim_C1 (⟨0, [], [[1]]⟩ : Cmd Nat)
    (⟨[], [RTask.effectCont 0 [5, 6]], []⟩ : Sched Nat) 0 5 [6] [] (by decide)
  exact ⟨by decide, h.1, h.2.1, h.2.2.2.1, h.2.2.2.2.1, h.2.2.2.2.2.1⟩

/-- Claim C2: the flush hands all effects to the spawner before scheduling
any pending message (`dropPrims` lists every `spawn_local` before every
`queue_microtask`, one microtask per message); and in every complete
execution the queue-originated dispatches are exactly the queued messages,
each dispatched exactly once, in registration order — in particular the
`j1`-th queued message is observably dispatched strictly before the
`j2`-th whenever `j1 < j2`. -/
theorem claim_C2 {Msg : Type} (q : Cmd Msg) (cs : List Choice)
    (hp : (runChoices (flushInit q) cs).pending = [])
    (hr : (runChoices (flushInit q) cs).ready = []) :
    Cmd.dropPrims q =
      q.cmds.map FlushPrim.spawnLocal ++ q.msgs.map FlushPrim.queueMicrotask ∧
    qeTrace (runChoices (flushInit q) cs).trace = enumFromL 0 q.msgs ∧
    ∀ j1 j2, j1 < j2 → j2 < q.msgs.length →
      beforeIn (runChoices (flushInit q) cs).trace (Origin.fromQueue j1)
        (Origin.fromQueue j2) := by
  have hq : combQ (runChoices (flushInit q) cs) = enumFromL 0 q.msgs := by
    rw [combQ_runChoices, combQ_flushInit]
  have htr : qeTrace (runChoices (flushInit q) cs).trace = enumFromL 0 q.msgs := by
    unfold combQ at hq
    rw [hr] at hq
    simpa using hq
  refine ⟨dropPrims_eq q, htr, fun j1 j2 h12 hl2 => ?_⟩
  refine extract_enum_before qSel Origin.fromQueue ?_ _ _ htr j1 j2 h12 hl2
  intro o j h
  cases o with
  | fromQueue k =>
    have : k = j := by simpa [qSel] using h
    rw [this]
  | fromEffect a b => simp [qSel] at h

/-- Witness for claim C2 on a queue with two messages and two effects,
under a complete schedule. -/
theorem claim_C2_witness :
    (runChoices (flushInit (⟨0, [10, 20], [[1, 2], []]⟩ : Cmd Nat))
        [Choice.runNext false, Choice.runNext true, Choice.runNext true,
          Choice.runNext true, Choice.resolve 0, Choice.runNext true,
          Choice.runNext true]).pending = [] ∧
    (runChoices (flushInit (⟨0, [10, 20], [[1, 2], []]⟩ : Cmd Nat))
        [Choice.runNext false, Choice.runNext true, Choice.runNext true,
          Choice.runNext true, Choice.resolve 0, Choice.runNext true,
          Choice.runNext true]).ready = [] ∧
    qeTrace (runChoices (flushInit (⟨0, [10, 20], [[1, 2], []]⟩ : Cmd Nat))
        [Choice.runNext false, Choice.runNext true, Choice.runNext true,
          Choice.runNext true, Choice.resolve 0, Choice.runNext true,
          Choice.runNext true]).trace =
      enumFromL 0 [10, 20] := by
  refine ⟨by decide, by decide, ?_⟩
  exact (claim_C2 (⟨0, [10, 20], [[1, 2], []]⟩ : Cmd Nat)
    [Choice.runNext false, Choice.runNext true, Choice.runNext true,
      Choice.runNext true, Choice.resolve 0, Choice.runNext true,
      Choice.runNext true]
    (by decide) (by decide)).2.1

/-- Claim C3: for every registered effect whose result has length at least
two, in every complete execution the effect's dispatches are exactly its
result messages, in result order — the first message is dispatched
strictly before every later one, and each later message strictly follows
the previous one (`j1`-th strictly before `j2`-th whenever `j1 < j2`). -/
theorem claim_C3 {Msg : Type} (q : Cmd Msg) (i : Nat) (ms : List Msg)
    (hms : q.cmds[i]? = some ms) (hlen : 2 ≤ ms.length) (cs : List Choice)
    (hp : (runChoices (flushInit q) cs).pending = [])
    (hr : (runChoices (flushInit q) cs).ready = []) :
    eeTrace i (runChoices (flushInit q) cs).trace = enumFromL 0 ms ∧
    ∀ j1 j2, j1 < j2 → j2 < ms.length →
      beforeIn (runChoices (flushInit q) cs).trace (Origin.fromEffect i j1)
        (Origin.fromEffect i j2) := by
  have hinv := invEff_flushInit i q
  have hrun := combE_runChoices cs (flushInit q) hinv
  have hcomb : combE i (runChoices (flushInit q) cs) = enumFromL 0 ms := by
    rw [hrun.1, combE_flushInit]
    simpa using eePending_tagCmds q.cmds 0 i ms hms
  have htr : eeTrace i (runChoices (flushInit q) cs).trace = enumFromL 0 ms := by
    unfold combE at hcomb
    rw [hp, hr] at hcomb
    simpa using hcomb
  refine ⟨htr, fun j1 j2 h12 hl2 => ?_⟩
  refine extract_enum_before (eSel i) (Origin.fromEffect i) ?_ _ _ htr j1 j2 h12 hl2
  intro o j h
  cases o with
  | fromQueue k => simp [eSel] at h
  | fromEffect i2 j2' =>
    by_cases hi : i2 = i
    · have : j2' = j := by simpa [eSel, hi] using h
      rw [hi, this]
    · simp [eSel, hi] at h

/-- Witness for claim C3 on an effect resolving to `[1, 2, 3]`, under a
complete schedule. -/
theorem claim_C3_witness :
    ((⟨0, [], [[1, 2, 3]]⟩ : Cmd Nat).cmds[0]? = some [1, 2, 3]) ∧
    2 ≤ ([1, 2, 3] : List Nat).length ∧
    (runChoices (flushInit (⟨0, [], [[1, 2, 3]]⟩ : Cmd Nat))
        [Choice.runNext false, Choice.resolve 0, Choice.runNext true,
          Choice.runNext true, Choice.runNext true]).pending = [] ∧
    (runChoices (flushInit (⟨0, [], [[1, 2, 3]]⟩ : Cmd Nat))
        [Choice.runNext false, Choice.resolve 0, Choice.runNext true,
          Choice.runNext true, Choice.runNext true]).ready = [] ∧
    eeTrace 0 (runChoices (flushInit (⟨0, [], [[1, 2, 3]]⟩ : Cmd Nat))
        [Choice.runNext false, Choice.resolve 0, Choice.runNext true,
          Choice.runNext true, Choice.runNext true]).trace = enumFromL 0 [1, 2, 3] := by
  refine ⟨by decide, by decide, by decide, by decide, ?_⟩
  exact (claim_C3 (⟨0, [], [[1, 2, 3]]⟩ : Cmd Nat) 0 [1, 2, 3] (by decide)
    (by decide)
    [Choice.runNext false, Choice.resolve 0, Choice.runNext true,
      Choice.runNext true, Choice.runNext true]
    (by decide) (by decide)).1

/-- Claim C4: flush drains both internal sequences exactly once, at scope
exit — `Drop` takes both lists (leaving them empty), hands off exactly one
spawn per registered effect and one scheduled microtask per queued
message, in order; and the drained queue performs no further hand-offs:
flushing it again produces no primitives and any execution from its flush
state dispatches nothing. -/
theorem claim_C4 {Msg : Type} (q : Cmd Msg) :
    (Cmd.dropFields q).msgs = [] ∧
    (Cmd.dropFields q).cmds = [] ∧
    Cmd.dropPrims (Cmd.dropFields q) = [] ∧
    Cmd.dropPrims q =
      q.cmds.map FlushPrim.spawnLocal ++ q.msgs.map FlushPrim.queueMicrotask ∧
    (∀ cs, runChoices (flushInit (Cmd.dropFields q)) cs =
      flushInit (Cmd.dropFields q)) ∧
    (flushInit (Cmd.dropFields q)).trace = [] := by
  refine ⟨rfl, rfl, ?_, dropPrims_eq q, ?_, rfl⟩
  · rw [dropPrims_eq]
    rfl
  · intro cs
    exact runChoices_of_empty cs _ rfl rfl

/-- Claim C5: an effect that resolves to the empty message sequence never
causes any dispatcher write — in every execution (complete or not) the
trace contains no entry originating from that effect. -/
theorem claim_C5 {Msg : Type} (q : Cmd Msg) (i : Nat)
    (hms : q.cmds[i]? = some ([] : List Msg)) (cs : List Choice) :
    eeTrace i (runChoices (flushInit q) cs).trace = [] := by
  have hinv := invEff_flushInit i q
  have hrun := combE_runChoices cs (flushInit q) hinv
  have hcomb : combE i (runChoices (flushInit q) cs) = [] := by
    rw [hrun.1, combE_flushInit]
    simpa using eePending_tagCmds q.cmds 0 i [] hms
  unfold combE at hcomb
  exact (List.append_eq_nil.mp (List.append_eq_nil.mp hcomb).1).1

/-- Witness for claim C5 on an effect resolving to the empty sequence. -/
theorem claim_C5_witness :
    ((⟨0, [7], [[]]⟩ : Cmd Nat).cmds[0]? = some []) ∧
    eeTrace 0 (runChoices (flushInit (⟨0, [7], [[]]⟩ : Cmd Nat))
        [Choice.runNext true, Choice.runNext true]).trace = [] := by
  refine ⟨by decide, ?_⟩
  exact claim_C5 (⟨0, [7], [[]]⟩ : Cmd Nat) 0 (by decide)
    [Choice.runNext true, Choice.runNext true]

/-- Claim C9: a fresh, unused queue performs zero dispatcher writes at
flush — its `Drop` invokes no scheduling primitive (no task spawned, no
microtask queued), and every execution from its flush state leaves the
state unchanged with an empty trace. -/
theorem claim_C9 {Msg : Type} (d : Nat) (cs : List Choice) :
    Cmd.dropPrims (Cmd.new Msg d) = [] ∧
    runChoices (flushInit (Cmd.new Msg d)) cs = flushInit (Cmd.new Msg d) ∧
    (runChoices (flushInit (Cmd.new Msg d)) cs).trace = [] := by
  have hempty : runChoices (flushInit (Cmd.new Msg d)) cs =
      flushInit (Cmd.new Msg d) :=
    runChoices_of_empty cs _ rfl rfl
  refine ⟨?_, hempty, ?_⟩
  · rw [dropPrims_eq]
    rfl
  · rw [hempty]
    rfl

end LeptosTea
